import Mathlib

/-!
Shallow embedding of the zahran-2-chain core (account ledger, transaction
executor, mempool, block producer) and of the l2-vm parallel execution
engine, with theorems checking the specification's claims against it.

Machine integers (`u64`, `usize`) are modelled as `Nat`; Rust `HashMap`s
are modelled as association lists with first-match lookup (keys are unique
in the source, and all operations here preserve the map abstraction);
`sha2::Sha256` is modelled as an arbitrary function parameter
`H : String → String`, since no claim depends on properties of the hash
function itself.
-/

namespace Core

/-- Embeds `Account` from `src/core/state.rs`. -/
structure Account where
  address : String
  balance : Nat
  nonce : Nat
  code : List Nat
  storage : List (String × String)
deriving Repr, DecidableEq

/-- Embeds `Account::new`. -/
def Account.new (address : String) (balance : Nat) : Account :=
  { address := address, balance := balance, nonce := 0, code := [], storage := [] }

/-- The `HashMap<String, Account>` inside `WorldState`, as an association list. -/
abbrev AccountMap := List (String × Account)

/-- `HashMap::get`, first-match lookup. -/
def lookupAcct : AccountMap → String → Option Account
  | [], _ => none
  | (k, a) :: rest, addr => if k = addr then some a else lookupAcct rest addr

/-- `HashMap::get_mut` followed by an update: modify the first entry with the key. -/
def modifyAcct (addr : String) (f : Account → Account) : AccountMap → AccountMap
  | [] => []
  | (k, a) :: rest =>
    if k = addr then (k, f a) :: rest else (k, a) :: modifyAcct addr f rest

/-- `HashMap::entry(k).and_modify(f).or_insert(d)`: modify the entry if present,
append it with value `d` otherwise. -/
def entryUpsert (addr : String) (f : Account → Account) (d : Account) : AccountMap → AccountMap
  | [] => [(addr, d)]
  | (k, a) :: rest =>
    if k = addr then (k, f a) :: rest else (k, a) :: entryUpsert addr f d rest

/-- Embeds `WorldState::transfer` (src/core/state.rs, lines 47-67).
The Rust method mutates `self.accounts` behind a lock and returns
`Result<(), String>`; here the updated map is returned alongside the result,
and an early error return leaves the map untouched. -/
def transfer (m : AccountMap) (from_ to_ : String) (amount : Nat) :
    Except String Unit × AccountMap :=
  match lookupAcct m from_ with
  | none => (Except.error "From account not found", m)
  | some fromAcc =>
    if fromAcc.balance < amount then (Except.error "Insufficient balance", m)
    else
      let m1 := modifyAcct from_
        (fun a => { a with balance := a.balance - amount, nonce := a.nonce + 1 }) m
      let m2 := entryUpsert to_
        (fun a => { a with balance := a.balance + amount }) (Account.new to_ amount) m1
      (Except.ok (), m2)

/-- Embeds `WorldState::get_balance`. -/
def get_balance (m : AccountMap) (addr : String) : Option Nat :=
  (lookupAcct m addr).map (fun a => a.balance)

/-- Embeds `WorldState::get_nonce`. -/
def get_nonce (m : AccountMap) (addr : String) : Nat :=
  match lookupAcct m addr with
  | some a => a.nonce
  | none => 0

/-- Sum of all balances held in the ledger. -/
def totalBalance (m : AccountMap) : Nat :=
  (m.map (fun p => p.2.balance)).sum


/-- Embeds `Transaction` from `src/core/transaction.rs` (`from`/`to` are Lean
keywords, hence the trailing underscores). -/
structure Transaction where
  from_ : String
  to_ : String
  value : Nat
  gas_price : Nat
  gas_limit : Nat
  nonce : Nat
  data : List Nat
  signature : List Nat
  hash : String
deriving Repr, DecidableEq

/-- Embeds `Transaction::verify` (src/core/transaction.rs, lines 41-44):
non-empty sender, non-empty recipient, positive value. -/
def Transaction.verify (tx : Transaction) : Bool :=
  !(tx.from_ == "") && !(tx.to_ == "") && decide (0 < tx.value)

/-- Embeds `TransactionReceipt` from `src/core/transaction.rs`. -/
structure TransactionReceipt where
  tx_hash : String
  block_number : Nat
  gas_used : Nat
  status : Bool
  logs : List String
deriving Repr, DecidableEq

/-- Embeds `TransactionExecutor::execute` (src/core/executor.rs, lines 14-43).
The mutated `WorldState` is threaded explicitly. -/
def execute (m : AccountMap) (tx : Transaction) (block_number : Nat) :
    TransactionReceipt × AccountMap :=
  if tx.verify = false then
    ({ tx_hash := tx.hash, block_number := block_number, gas_used := 0, status := false,
       logs := ["Transaction verification failed"] }, m)
  else
    match (transfer m tx.from_ tx.to_ tx.value).1 with
    | Except.ok _ =>
      ({ tx_hash := tx.hash, block_number := block_number, gas_used := tx.gas_limit,
         status := true,
         logs := ["Transferred " ++ toString tx.value ++ " from " ++ tx.from_ ++ " to " ++ tx.to_] },
       (transfer m tx.from_ tx.to_ tx.value).2)
    | Except.error e =>
      ({ tx_hash := tx.hash, block_number := block_number, gas_used := 21000, status := false,
         logs := ["Execution failed: " ++ e] },
       (transfer m tx.from_ tx.to_ tx.value).2)

/-- Embeds `TransactionExecutor::execute_batch` (src/core/executor.rs, lines 45-54):
sequential execution, receipts in input order. -/
def execute_batch (m : AccountMap) (txs : List Transaction) (block_number : Nat) :
    List TransactionReceipt × AccountMap :=
  match txs with
  | [] => ([], m)
  | tx :: rest =>
    let p := execute m tx block_number
    let q := execute_batch p.2 rest block_number
    (p.1 :: q.1, q.2)

/-- One iteration of the sender-grouping loop inside
`TransactionExecutor::execute_parallel` (src/core/executor.rs, lines 63-78).
State: (closed groups, current group, seen senders). -/
def groupStep (st : List (List Transaction) × List Transaction × List String)
    (tx : Transaction) : List (List Transaction) × List Transaction × List String :=
  if st.2.2.contains tx.from_ then
    (st.1 ++ [st.2.1], [tx], [tx.from_])
  else
    (st.1, st.2.1 ++ [tx], st.2.2 ++ [tx.from_])

/-- The sender-based grouping of `TransactionExecutor::execute_parallel`:
fold `groupStep` over the batch, then push the final non-empty group. -/
def group_by_sender (txs : List Transaction) : List (List Transaction) :=
  let st := txs.foldl groupStep ([], [], [])
  if st.2.1.isEmpty then st.1 else st.1 ++ [st.2.1]

/-- The group-execution loop of `execute_parallel` (src/core/executor.rs,
lines 80-87): groups run in order, and inside each group the code awaits
`execute` per transaction, i.e. runs them sequentially. -/
def execute_groups (m : AccountMap) (groups : List (List Transaction)) (block_number : Nat) :
    List TransactionReceipt × AccountMap :=
  match groups with
  | [] => ([], m)
  | g :: gs =>
    let p := execute_batch m g block_number
    let q := execute_groups p.2 gs block_number
    (p.1 ++ q.1, q.2)

/-- Embeds `TransactionExecutor::execute_parallel` (src/core/executor.rs,
lines 57-90). -/
def execute_parallel (m : AccountMap) (txs : List Transaction) (block_number : Nat) :
    List TransactionReceipt × AccountMap :=
  execute_groups m (group_by_sender txs) block_number

/-- Embeds `Mempool` from `src/core/mempool.rs`: FIFO queue plus hash index. -/
structure Mempool where
  pending : List Transaction
  by_hash : List (String × Transaction)
  max_size : Nat

/-- Embeds `Mempool::add_transaction` (src/core/mempool.rs, lines 21-37):
capacity check first, then duplicate check, then insert. -/
def Mempool.add_transaction (p : Mempool) (tx : Transaction) :
    Except String Unit × Mempool :=
  if p.max_size ≤ p.pending.length then (Except.error "Mempool full", p)
  else if (p.by_hash.map Prod.fst).contains tx.hash then
    (Except.error "Transaction already exists", p)
  else
    (Except.ok (),
     { p with by_hash := (tx.hash, tx) :: p.by_hash, pending := p.pending ++ [tx] })

/-- Embeds `Mempool::get_transactions` (src/core/mempool.rs, lines 39-50):
pop up to `count` transactions off the front; `by_hash` is deliberately left
untouched by the source, so drained hashes stay "in-flight". -/
def Mempool.get_transactions (p : Mempool) (count : Nat) : List Transaction × Mempool :=
  (p.pending.take count, { p with pending := p.pending.drop count })

/-- Embeds `Block` from `src/core/block.rs`. -/
structure Block where
  number : Nat
  timestamp : Int
  transactions : List Transaction
  parent_hash : String
  hash : String
  state_root : String
  gas_used : Nat
  gas_limit : Nat
  validator : String
deriving Repr, DecidableEq

/-- Embeds `Block::calculate_hash` (src/core/block.rs, lines 47-58): SHA-256
(modelled by the parameter `H`) of number ++ timestamp ++ parent_hash ++
transaction count. -/
def Block.calculate_hash (H : String → String) (b : Block) : String :=
  H (toString b.number ++ toString b.timestamp ++ b.parent_hash ++ toString b.transactions.length)

/-- Embeds `Block::new` (src/core/block.rs, lines 20-34); the source takes the
timestamp from `Utc::now()`, modelled as the input `ts`. -/
def Block.new (H : String → String) (number : Nat) (parent_hash : String)
    (validator : String) (ts : Int) : Block :=
  let b : Block :=
    { number := number, timestamp := ts, transactions := [], parent_hash := parent_hash,
      hash := "", state_root := "0x0", gas_used := 0, gas_limit := 30000000,
      validator := validator }
  { b with hash := Block.calculate_hash H b }

/-- Embeds `Block::add_transaction` (src/core/block.rs, lines 36-45): append the
transaction and recompute the hash when it fits the gas budget, otherwise
return `false` and leave the block unchanged. -/
def Block.add_transaction (H : String → String) (b : Block) (tx : Transaction) :
    Block × Bool :=
  if b.gas_used + tx.gas_limit ≤ b.gas_limit then
    let b1 : Block :=
      { b with gas_used := b.gas_used + tx.gas_limit,
               transactions := b.transactions ++ [tx] }
    ({ b1 with hash := Block.calculate_hash H b1 }, true)
  else (b, false)

/-- The block-filling loop of `BlockProducer::produce_block`
(src/consensus/producer.rs, lines 65-69): for each (transaction, receipt) pair
with a successful receipt, call `Block::add_transaction`, discarding its
boolean result and continuing with the next pair. -/
def add_successful (H : String → String) (b : Block) :
    List (Transaction × TransactionReceipt) → Block
  | [] => b
  | (tx, r) :: rest =>
    if r.status then add_successful H (Block.add_transaction H b tx).1 rest
    else add_successful H b rest

/-- The mutable fields of `BlockProducer` (src/consensus/producer.rs):
`current_block` and `last_hash` (initially 0 and "0x0"). -/
structure ProducerState where
  current_block : Nat
  last_hash : String
deriving Repr, DecidableEq

/-- Embeds `BlockProducer::produce_block` (src/consensus/producer.rs, lines
41-83) as a pure step: the batch `txs` is the result of the mempool pull and
`ts` the wall-clock timestamp. Returns the new producer state, the new ledger,
and the committed block (`none` on an empty tick: the block number is still
consumed but `last_hash` is untouched and no block is produced). -/
def produce_block (H : String → String) (validator : String) (ts : Int)
    (st : ProducerState) (m : AccountMap) (txs : List Transaction) :
    ProducerState × AccountMap × Option Block :=
  let bn := st.current_block + 1
  if txs.isEmpty then ({ current_block := bn, last_hash := st.last_hash }, m, none)
  else
    let block0 := Block.new H bn st.last_hash validator ts
    let er := execute_batch m txs bn
    let block := add_successful H block0 (txs.zip er.1)
    ({ current_block := bn, last_hash := block.hash }, er.2, some block)

/-- A sequence of production cycles: each input is (timestamp, pulled batch);
the result is the list of committed blocks in commit order. -/
def run_producer (H : String → String) (validator : String) :
    ProducerState → AccountMap → List (Int × List Transaction) → List Block
  | _, _, [] => []
  | st, m, (ts, txs) :: rest =>
    match produce_block H validator ts st m txs with
    | (st2, m2, none) => run_producer H validator st2 m2 rest
    | (st2, m2, some b) => b :: run_producer H validator st2 m2 rest


/-- Concrete transaction fixture (hash "h1") for mempool scenarios. -/
def txH1 : Transaction :=
  { from_ := "a", to_ := "b", value := 1, gas_price := 1, gas_limit := 21000,
    nonce := 0, data := [], signature := [], hash := "h1" }

/-- A pool of capacity 1 already holding `txH1` pending, its hash indexed. -/
def poolFull1 : Mempool :=
  { pending := [txH1], by_hash := [("h1", txH1)], max_size := 1 }

/-- Gas fixtures for block assembly: 20M + 20M overflows the 30M budget,
but the later 10M transaction still fits. -/
def gasT1 : Transaction :=
  { from_ := "a", to_ := "b", value := 1, gas_price := 1, gas_limit := 20000000,
    nonce := 0, data := [], signature := [], hash := "t1" }

def gasT2 : Transaction :=
  { from_ := "a", to_ := "b", value := 1, gas_price := 1, gas_limit := 20000000,
    nonce := 1, data := [], signature := [], hash := "t2" }

def gasT3 : Transaction :=
  { from_ := "a", to_ := "b", value := 1, gas_price := 1, gas_limit := 10000000,
    nonce := 2, data := [], signature := [], hash := "t3" }

/-- A successful receipt (contents beyond `status` are irrelevant to assembly). -/
def okReceipt : TransactionReceipt :=
  { tx_hash := "r", block_number := 1, gas_used := 0, status := true, logs := [] }

/-- A fresh block fixture built with the trivial hash function. -/
def blockB0 : Block := Block.new (fun _ => "") 1 "p" "v" 0

end Core

namespace L2

/-- Embeds `Transaction` from `src/l2-vm/src/parallel_execution.rs`, which
carries declared read and write sets. -/
structure Transaction where
  hash : String
  from_ : String
  to_ : String
  value : Nat
  data : List Nat
  reads : List String
  writes : List String
  executed : Bool
deriving Repr, DecidableEq

/-- Embeds `ParallelExecutionEngine::detect_conflict`
(src/l2-vm/src/parallel_execution.rs, lines 128-154): write-write, read-write
or write-read overlap. The source also bumps an observability counter on the
first overlap found; the returned boolean is modelled here. -/
def detect_conflict (tx1 tx2 : Transaction) : Bool :=
  tx1.writes.any (fun w => tx2.writes.contains w)
  || tx1.reads.any (fun r => tx2.writes.contains r)
  || tx1.writes.any (fun w => tx2.reads.contains w)

/-- The account keys a transaction touches, in the order the grouping loop
iterates them: `tx.reads.iter().chain(tx.writes.iter())`. -/
def keysOf (tx : Transaction) : List String :=
  tx.reads ++ tx.writes

/-- One pass of the scanning loop inside
`ParallelExecutionEngine::group_independent_txs`
(src/l2-vm/src/parallel_execution.rs, lines 161-192): scan `remaining` in
order; a transaction whose keys avoid the claimed set joins the group and
claims its keys, otherwise it stays behind for the next pass. Returns
(group, deferred). -/
def onePass (used : List String) : List Transaction → List Transaction × List Transaction
  | [] => ([], [])
  | t :: ts =>
    if (keysOf t).any (fun a => used.contains a) then
      ((onePass used ts).1, t :: (onePass used ts).2)
    else
      (t :: (onePass (used ++ keysOf t) ts).1, (onePass (used ++ keysOf t) ts).2)

/-- Each pass splits its input: group and deferred lengths add up. (Needed
before `group_independent_txs` to justify its termination.) -/
lemma onePass_length (used : List String) (l : List Transaction) :
    (onePass used l).1.length + (onePass used l).2.length = l.length := by
  induction l generalizing used with
  | nil => simp [onePass]
  | cons t ts ih =>
    simp only [onePass]
    by_cases h : (keysOf t).any (fun a => used.contains a)
    · rw [if_pos h]
      have h2 := ih used
      simp only [List.length_cons]
      omega
    · rw [if_neg h]
      have h2 := ih (used ++ keysOf t)
      simp only [List.length_cons]
      omega

/-- Embeds `ParallelExecutionEngine::group_independent_txs`
(src/l2-vm/src/parallel_execution.rs, lines 157-210): repeat passes until
nothing remains; if a pass produces an empty group, stop and emit the
remaining transactions as singleton groups. -/
def group_independent_txs (remaining : List Transaction) : List (List Transaction) :=
  if remaining.isEmpty then []
  else
    if h : ((onePass [] remaining).1).isEmpty then remaining.map (fun t => [t])
    else (onePass [] remaining).1 :: group_independent_txs (onePass [] remaining).2
termination_by remaining.length
decreasing_by
  have hl := onePass_length [] remaining
  have hne : (onePass [] remaining).1 ≠ [] := by
    intro he
    rw [he] at h
    exact h rfl
  have hpos : 0 < (onePass [] remaining).1.length := List.length_pos.mpr hne
  omega


/-- The spec's conflict-freedom predicate (section 8 of the spec): no
write-write, read-write or write-read overlap between two transactions. -/
def conflictFree (i j : Transaction) : Prop :=
  (∀ k, k ∈ i.writes → k ∉ j.writes) ∧ (∀ k, k ∈ i.reads → k ∉ j.writes)
  ∧ (∀ k, k ∈ i.writes → k ∉ j.reads)

/-- Concrete l2-vm transaction fixture (mirrors the `tx1` of the source's
`test_parallel_execution`). -/
def txA : Transaction :=
  { hash := "tx1", from_ := "alice", to_ := "bob", value := 100, data := [],
    reads := ["alice"], writes := ["bob"], executed := false }

end L2

namespace Core

lemma lookupAcct_modify_self (addr : String) (f : Account → Account) :
    ∀ m : AccountMap, lookupAcct (modifyAcct addr f m) addr = (lookupAcct m addr).map f := by
  intro m
  induction m with
  | nil => simp [modifyAcct, lookupAcct]
  | cons p rest ih =>
    obtain ⟨k, a⟩ := p
    by_cases h : k = addr
    · simp [modifyAcct, lookupAcct, h]
    · simp [modifyAcct, lookupAcct, h, ih]

lemma lookupAcct_modify_other (addr k2 : String) (f : Account → Account) (hne : k2 ≠ addr) :
    ∀ m : AccountMap, lookupAcct (modifyAcct addr f m) k2 = lookupAcct m k2 := by
  intro m
  induction m with
  | nil => simp [modifyAcct]
  | cons p rest ih =>
    obtain ⟨k, a⟩ := p
    by_cases h : k = addr
    · have haddr : ¬ addr = k2 := fun h2 => hne h2.symm
      simp [modifyAcct, lookupAcct, h, haddr]
    · simp only [modifyAcct, if_neg h, lookupAcct]
      by_cases h2 : k = k2
      · simp [h2]
      · simp [h2, ih]

lemma lookupAcct_upsert_self (addr : String) (f : Account → Account) (d : Account) :
    ∀ m : AccountMap, lookupAcct (entryUpsert addr f d m) addr =
      some (match lookupAcct m addr with | some a => f a | none => d) := by
  intro m
  induction m with
  | nil => simp [entryUpsert, lookupAcct]
  | cons p rest ih =>
    obtain ⟨k, a⟩ := p
    by_cases h : k = addr
    · simp [entryUpsert, lookupAcct, h]
    · simp [entryUpsert, lookupAcct, h, ih]

lemma lookupAcct_upsert_other (addr k2 : String) (f : Account → Account) (d : Account)
    (hne : k2 ≠ addr) :
    ∀ m : AccountMap, lookupAcct (entryUpsert addr f d m) k2 = lookupAcct m k2 := by
  intro m
  induction m with
  | nil =>
    have : ¬ addr = k2 := fun h => hne h.symm
    simp [entryUpsert, lookupAcct, this]
  | cons p rest ih =>
    obtain ⟨k, a⟩ := p
    by_cases h : k = addr
    · have haddr : ¬ addr = k2 := fun h2 => hne h2.symm
      simp [entryUpsert, lookupAcct, h, haddr]
    · simp only [entryUpsert, if_neg h, lookupAcct]
      by_cases h2 : k = k2
      · simp [h2]
      · simp [h2, ih]


/-- C1: `WorldState::transfer` fails with `UnknownSender` ("From account not
found") exactly when the sender has no account, fails with
`InsufficientBalance` exactly when the sender's balance is below the amount,
leaves the ledger untouched on any failure, and on success debits the sender,
increments the sender's nonce, credits the recipient (creating it with the
credited balance if absent), and touches no other account. -/
theorem transfer_spec (m : AccountMap) (f t : String) (amount : Nat) :
    ((transfer m f t amount).1 = Except.error "From account not found" ↔
      lookupAcct m f = none)
    ∧ ((transfer m f t amount).1 = Except.error "Insufficient balance" ↔
      ∃ a, lookupAcct m f = some a ∧ a.balance < amount)
    ∧ (∀ e, (transfer m f t amount).1 = Except.error e → (transfer m f t amount).2 = m)
    ∧ (∀ a, lookupAcct m f = some a → amount ≤ a.balance →
        (transfer m f t amount).1 = Except.ok ()
        ∧ get_nonce (transfer m f t amount).2 f = a.nonce + 1
        ∧ (t ≠ f → get_balance (transfer m f t amount).2 f = some (a.balance - amount))
        ∧ (t = f → get_balance (transfer m f t amount).2 f = some a.balance)
        ∧ (t ≠ f → ∀ b, lookupAcct m t = some b →
            get_balance (transfer m f t amount).2 t = some (b.balance + amount))
        ∧ (lookupAcct m t = none →
            lookupAcct (transfer m f t amount).2 t = some (Account.new t amount))
        ∧ (∀ k, k ≠ f → k ≠ t →
            lookupAcct (transfer m f t amount).2 k = lookupAcct m k)) := by
  rcases hm : lookupAcct m f with _ | a
  · refine ⟨by simp [transfer, hm], ?_, by simp [transfer, hm], ?_⟩
    · constructor
      · intro h
        simp only [transfer, hm] at h
        injection h with h2
        exact absurd h2 (by decide)
      · rintro ⟨b, hb, _⟩
        exact Option.noConfusion hb
    · intro b hb
      exact Option.noConfusion hb
  · by_cases hlt : a.balance < amount
    · refine ⟨?_, ?_, ?_, ?_⟩
      · constructor
        · intro h
          simp only [transfer, hm, if_pos hlt] at h
          injection h with h2
          exact absurd h2 (by decide)
        · intro h
          exact Option.noConfusion h
      · exact ⟨fun _ => ⟨a, rfl, hlt⟩, fun _ => by simp [transfer, hm, if_pos hlt]⟩
      · intro e _
        simp [transfer, hm, if_pos hlt]
      · intro b hb hle
        injection hb with hb
        subst hb
        exact absurd hlt (not_lt.mpr hle)
    · have hok : transfer m f t amount =
          (Except.ok (),
           entryUpsert t (fun x => { x with balance := x.balance + amount })
             (Account.new t amount)
             (modifyAcct f
               (fun x => { x with balance := x.balance - amount, nonce := x.nonce + 1 }) m)) := by
        simp [transfer, hm, if_neg hlt]
      refine ⟨?_, ?_, ?_, ?_⟩
      · constructor
        · intro h
          simp [hok] at h
        · intro h
          exact Option.noConfusion h
      · constructor
        · intro h
          simp [hok] at h
        · rintro ⟨b, hb, hblt⟩
          injection hb with hb
          subst hb
          exact absurd hblt hlt
      · intro e he
        simp [hok] at he
      · intro b hb hle
        injection hb with hb
        subst hb
        refine ⟨by simp [hok], ?_, ?_, ?_, ?_, ?_, ?_⟩
        · by_cases ht : t = f
          · subst ht
            simp [hok, get_nonce, lookupAcct_upsert_self, lookupAcct_modify_self, hm]
          · simp [hok, get_nonce,
              lookupAcct_upsert_other t f _ _ (fun h => ht h.symm),
              lookupAcct_modify_self, hm]
        · intro ht
          simp [hok, get_balance,
            lookupAcct_upsert_other t f _ _ (fun h => ht h.symm),
            lookupAcct_modify_self, hm]
        · intro ht
          subst ht
          simp [hok, get_balance, lookupAcct_upsert_self, lookupAcct_modify_self, hm]
          omega
        · intro ht c hc
          simp [hok, get_balance, lookupAcct_upsert_self,
            lookupAcct_modify_other f t _ ht, hc]
        · intro hnone
          have hft : t ≠ f := by
            intro h
            rw [h, hm] at hnone
            exact Option.noConfusion hnone
          simp [hok, lookupAcct_upsert_self,
            lookupAcct_modify_other f t _ hft, hnone]
        · intro k hkf hkt
          simp [hok, lookupAcct_upsert_other t k _ _ hkt,
            lookupAcct_modify_other f k _ hkf]

/-- Witness for C1: Alice with balance 100 sends 30 to absent Bob. -/
theorem transfer_spec_witness :
    (transfer [("alice", Account.new "alice" 100)] "alice" "bob" 30).1 = Except.ok ()
    ∧ get_nonce (transfer [("alice", Account.new "alice" 100)] "alice" "bob" 30).2 "alice" = 1 := by
  have h := (transfer_spec [("alice", Account.new "alice" 100)] "alice" "bob" 30).2.2.2
      (Account.new "alice" 100) (by simp [lookupAcct]) (by simp [Account.new])
  exact ⟨h.1, h.2.1⟩

lemma totalBalance_debit (f : String) (amount : Nat) :
    ∀ (m : AccountMap) (a : Account), lookupAcct m f = some a → amount ≤ a.balance →
    totalBalance (modifyAcct f
        (fun x => { x with balance := x.balance - amount, nonce := x.nonce + 1 }) m) + amount
      = totalBalance m := by
  intro m
  induction m with
  | nil =>
    intro a h
    simp [lookupAcct] at h
  | cons p rest ih =>
    obtain ⟨k, b⟩ := p
    intro a h hle
    by_cases hk : k = f
    · simp only [lookupAcct, if_pos hk] at h
      injection h with h
      subst h
      simp only [modifyAcct, if_pos hk, totalBalance, List.map_cons, List.sum_cons]
      simp only [totalBalance] at *
      omega
    · simp only [lookupAcct, if_neg hk] at h
      have h2 := ih a h hle
      simp only [modifyAcct, if_neg hk, totalBalance, List.map_cons, List.sum_cons] at *
      omega

lemma totalBalance_credit (t : String) (amount : Nat) :
    ∀ m : AccountMap,
    totalBalance (entryUpsert t (fun x => { x with balance := x.balance + amount })
        (Account.new t amount) m)
      = totalBalance m + amount := by
  intro m
  induction m with
  | nil => simp [entryUpsert, totalBalance, Account.new]
  | cons p rest ih =>
    obtain ⟨k, b⟩ := p
    by_cases hk : k = t
    · simp only [entryUpsert, if_pos hk, totalBalance, List.map_cons, List.sum_cons]
      omega
    · simp only [entryUpsert, if_neg hk, totalBalance, List.map_cons, List.sum_cons] at *
      omega

/-- C8: a successful `WorldState::transfer` leaves the sum of all account
balances unchanged (conservation). -/
theorem transfer_conservation (m : AccountMap) (f t : String) (amount : Nat)
    (h : (transfer m f t amount).1 = Except.ok ()) :
    totalBalance (transfer m f t amount).2 = totalBalance m := by
  rcases hm : lookupAcct m f with _ | a
  · simp [transfer, hm] at h
  · by_cases hlt : a.balance < amount
    · simp [transfer, hm, if_pos hlt] at h
    · simp only [transfer, hm, if_neg hlt]
      rw [totalBalance_credit]
      exact totalBalance_debit f amount m a hm (not_lt.mp hlt)

/-- Witness for C8: the 100-coin ledger still totals 100 after Alice pays Bob 30. -/
theorem transfer_conservation_witness :
    totalBalance (transfer [("alice", Account.new "alice" 100)] "alice" "bob" 30).2
      = totalBalance [("alice", Account.new "alice" 100)] :=
  transfer_conservation [("alice", Account.new "alice" 100)] "alice" "bob" 30 (by rfl)

end Core

namespace Core

/-- C6: `TransactionExecutor::execute` — a transaction failing `verify()`
(empty sender, empty recipient, or zero value) yields a failed receipt with
`gas_used = 0` and an untouched ledger; a verified transaction whose transfer
succeeds yields a successful receipt charged the declared `gas_limit`; a
verified transaction whose transfer fails yields a failed receipt charged the
flat 21000 base fee. -/
theorem execute_receipt_spec (m : AccountMap) (tx : Transaction) (bn : Nat) :
    (tx.verify = false ↔ (tx.from_ = "" ∨ tx.to_ = "" ∨ tx.value = 0))
    ∧ (tx.verify = false →
        (execute m tx bn).1.status = false ∧ (execute m tx bn).1.gas_used = 0
        ∧ (execute m tx bn).2 = m)
    ∧ (tx.verify = true → (transfer m tx.from_ tx.to_ tx.value).1 = Except.ok () →
        (execute m tx bn).1.status = true ∧ (execute m tx bn).1.gas_used = tx.gas_limit)
    ∧ (tx.verify = true → ∀ e, (transfer m tx.from_ tx.to_ tx.value).1 = Except.error e →
        (execute m tx bn).1.status = false ∧ (execute m tx bn).1.gas_used = 21000) := by
  refine ⟨?_, ?_, ?_, ?_⟩
  · rw [Transaction.verify]
    simp [Bool.and_eq_false_iff]
    tauto
  · intro h
    simp [execute, h]
  · intro hv htr
    simp [execute, hv, htr]
  · intro hv e htr
    simp [execute, hv, htr]

/-- Witness for C6: an empty-sender transaction gets a failed, zero-gas receipt. -/
theorem execute_receipt_spec_witness :
    (execute [] { txH1 with from_ := "" } 1).1.status = false
    ∧ (execute [] { txH1 with from_ := "" } 1).1.gas_used = 0 := by
  have h := (execute_receipt_spec [] { txH1 with from_ := "" } 1).2.1 (by decide)
  exact ⟨h.1, h.2.1⟩

lemma execute_batch_append (bn : Nat) :
    ∀ (l1 l2 : List Transaction) (m : AccountMap),
    execute_batch m (l1 ++ l2) bn =
      ((execute_batch m l1 bn).1 ++ (execute_batch (execute_batch m l1 bn).2 l2 bn).1,
       (execute_batch (execute_batch m l1 bn).2 l2 bn).2) := by
  intro l1
  induction l1 with
  | nil => intro l2 m; simp [execute_batch]
  | cons tx rest ih => intro l2 m; simp [execute_batch, ih]

lemma execute_groups_join (bn : Nat) :
    ∀ (gs : List (List Transaction)) (m : AccountMap),
    execute_groups m gs bn = execute_batch m gs.flatten bn := by
  intro gs
  induction gs with
  | nil => intro m; simp [execute_groups, execute_batch]
  | cons g rest ih =>
    intro m
    simp [execute_groups, ih, execute_batch_append bn g rest.flatten]

lemma groupStep_join_invariant :
    ∀ (txs : List Transaction) (gs : List (List Transaction)) (cur : List Transaction)
      (seen : List String),
    (txs.foldl groupStep (gs, cur, seen)).1.flatten ++ (txs.foldl groupStep (gs, cur, seen)).2.1
      = gs.flatten ++ cur ++ txs := by
  intro txs
  induction txs with
  | nil => intro gs cur seen; simp
  | cons tx rest ih =>
    intro gs cur seen
    simp only [List.foldl_cons]
    by_cases h : tx.from_ ∈ seen
    · rw [show groupStep (gs, cur, seen) tx = (gs ++ [cur], [tx], [tx.from_]) from by
        simp [groupStep, h]]
      rw [ih]
      simp
    · rw [show groupStep (gs, cur, seen) tx = (gs, cur ++ [tx], seen ++ [tx.from_]) from by
        simp [groupStep, h]]
      rw [ih]
      simp

lemma group_by_sender_join (txs : List Transaction) :
    (group_by_sender txs).flatten = txs := by
  have h := groupStep_join_invariant txs [] [] []
  simp only [List.flatten_nil, List.nil_append] at h
  simp only [group_by_sender]
  by_cases he : (txs.foldl groupStep ([], [], [])).2.1.isEmpty
  · rw [if_pos he]
    rw [List.isEmpty_iff] at he
    rw [he, List.append_nil] at h
    exact h
  · rw [if_neg he]
    simp only [List.flatten_append, List.flatten_cons, List.flatten_nil, List.append_nil]
    exact h

/-- C10: `TransactionExecutor::execute_parallel` returns the same receipts in
the same order and the same final ledger as `execute_batch`: its sender-based
grouping splits the batch into contiguous runs whose concatenation is the
original batch, and it executes them sequentially. -/
theorem execute_parallel_eq_batch (m : AccountMap) (txs : List Transaction) (bn : Nat) :
    execute_parallel m txs bn = execute_batch m txs bn
    ∧ (group_by_sender txs).flatten = txs := by
  refine ⟨?_, group_by_sender_join txs⟩
  rw [execute_parallel, execute_groups_join bn, group_by_sender_join]

/-- C7 (amended): `Mempool::add_transaction` checks capacity first — it fails
with `PoolFull` ("Mempool full") exactly when the pending queue is at
capacity; below capacity it fails with `DuplicateTransaction` ("Transaction
already exists") exactly when the hash is already indexed (pending or
in-flight); otherwise it succeeds (with a unit value — the caller already
holds the hash), growing the pending count by one; a failed submit leaves the
pool unchanged. -/
theorem mempool_add_transaction_spec (p : Mempool) (tx : Transaction) :
    ((p.add_transaction tx).1 = Except.error "Mempool full" ↔
      p.max_size ≤ p.pending.length)
    ∧ ((p.add_transaction tx).1 = Except.error "Transaction already exists" ↔
      (p.pending.length < p.max_size ∧ tx.hash ∈ p.by_hash.map Prod.fst))
    ∧ ((p.add_transaction tx).1 = Except.ok () ↔
      (p.pending.length < p.max_size ∧ tx.hash ∉ p.by_hash.map Prod.fst))
    ∧ ((p.add_transaction tx).1 = Except.ok () →
      (p.add_transaction tx).2.pending.length = p.pending.length + 1)
    ∧ (∀ e, (p.add_transaction tx).1 = Except.error e → (p.add_transaction tx).2 = p) := by
  by_cases h1 : p.max_size ≤ p.pending.length
  · refine ⟨by simp [Mempool.add_transaction, h1], ?_, ?_, ?_, ?_⟩
    · constructor
      · intro h
        simp only [Mempool.add_transaction, if_pos h1] at h
        injection h with h2
        exact absurd h2 (by decide)
      · rintro ⟨hlt, _⟩
        exact absurd h1 (not_le.mpr hlt)
    · constructor
      · intro h
        simp [Mempool.add_transaction, h1] at h
      · rintro ⟨hlt, _⟩
        exact absurd h1 (not_le.mpr hlt)
    · intro h
      simp [Mempool.add_transaction, h1] at h
    · intro e _
      simp [Mempool.add_transaction, h1]
  · by_cases h2 : (p.by_hash.map Prod.fst).contains tx.hash
    · have hmem : tx.hash ∈ p.by_hash.map Prod.fst := List.elem_iff.mp h2
      refine ⟨?_, ?_, ?_, ?_, ?_⟩
      · constructor
        · intro h
          simp only [Mempool.add_transaction, if_neg h1, if_pos h2] at h
          injection h with h3
          exact absurd h3 (by decide)
        · intro h
          exact absurd h h1
      · exact ⟨fun _ => ⟨not_le.mp h1, hmem⟩,
          fun _ => by simp [Mempool.add_transaction, h1, hmem]⟩
      · constructor
        · intro h
          simp [Mempool.add_transaction, h1, hmem] at h
        · rintro ⟨_, hnm⟩
          exact absurd hmem hnm
      · intro h
        simp [Mempool.add_transaction, h1, hmem] at h
      · intro e _
        simp [Mempool.add_transaction, h1, hmem]
    · have hmem : tx.hash ∉ p.by_hash.map Prod.fst := fun h => h2 (List.elem_iff.mpr h)
      refine ⟨?_, ?_, ?_, ?_, ?_⟩
      · constructor
        · intro h
          simp [Mempool.add_transaction, h1, hmem] at h
        · intro h
          exact absurd h h1
      · constructor
        · intro h
          simp [Mempool.add_transaction, h1, hmem] at h
        · rintro ⟨_, hm⟩
          exact absurd hm hmem
      · exact ⟨fun _ => ⟨not_le.mp h1, hmem⟩,
          fun _ => by simp [Mempool.add_transaction, h1, hmem]⟩
      · intro _
        simp [Mempool.add_transaction, h1, hmem]
      · intro e he
        simp [Mempool.add_transaction, h1, hmem] at he

/-- Witness for C7's amended spec: submitting a fresh transaction to an empty
pool of capacity 1 succeeds and the pending count becomes 1. -/
theorem mempool_add_transaction_spec_witness :
    ((Mempool.mk [] [] 1).add_transaction txH1).2.pending.length = 1 :=
  (mempool_add_transaction_spec (Mempool.mk [] [] 1) txH1).2.2.2.1 (by rfl)

/-- C7 counterexample: with the pool at capacity and the transaction hash
already present, `add_transaction` fails with `PoolFull`, not
`DuplicateTransaction` — the duplicate condition does not decide the error. -/
theorem mempool_full_shadows_duplicate :
    txH1.hash ∈ poolFull1.by_hash.map Prod.fst
    ∧ (poolFull1.add_transaction txH1).1 = Except.error "Mempool full"
    ∧ (poolFull1.add_transaction txH1).1 ≠ Except.error "Transaction already exists" := by
  refine ⟨by simp [poolFull1, txH1], rfl, ?_⟩
  intro h
  rw [show (poolFull1.add_transaction txH1).1 = Except.error "Mempool full" from rfl] at h
  injection h with h2
  exact absurd h2 (by decide)

end Core

namespace L2

/-- C9: `detect_conflict` reports a conflict between two transactions exactly
when their declared sets overlap write-write, read-write or write-read, and
the reported relation is symmetric. -/
theorem detect_conflict_spec (i j : Transaction) :
    (detect_conflict i j = true ↔
      ((∃ k, k ∈ i.writes ∧ k ∈ j.writes) ∨ (∃ k, k ∈ i.reads ∧ k ∈ j.writes)
        ∨ (∃ k, k ∈ i.writes ∧ k ∈ j.reads)))
    ∧ detect_conflict i j = detect_conflict j i := by
  have hiff : ∀ a b : Transaction, detect_conflict a b = true ↔
      ((∃ k, k ∈ a.writes ∧ k ∈ b.writes) ∨ (∃ k, k ∈ a.reads ∧ k ∈ b.writes)
        ∨ (∃ k, k ∈ a.writes ∧ k ∈ b.reads)) := by
    intro a b
    simp [detect_conflict, List.any_eq_true]
    exact or_assoc
  refine ⟨hiff i j, ?_⟩
  have e : detect_conflict i j = true ↔ detect_conflict j i = true := by
    rw [hiff i j, hiff j i]
    constructor
    · rintro (⟨k, h1, h2⟩ | ⟨k, h1, h2⟩ | ⟨k, h1, h2⟩)
      · exact Or.inl ⟨k, h2, h1⟩
      · exact Or.inr (Or.inr ⟨k, h2, h1⟩)
      · exact Or.inr (Or.inl ⟨k, h2, h1⟩)
    · rintro (⟨k, h1, h2⟩ | ⟨k, h1, h2⟩ | ⟨k, h1, h2⟩)
      · exact Or.inl ⟨k, h2, h1⟩
      · exact Or.inr (Or.inr ⟨k, h2, h1⟩)
      · exact Or.inr (Or.inl ⟨k, h2, h1⟩)
  exact Bool.coe_iff_coe.mp e

lemma onePass_perm (used : List String) (l : List Transaction) :
    List.Perm ((onePass used l).1 ++ (onePass used l).2) l := by
  induction l generalizing used with
  | nil => simp [onePass]
  | cons t ts ih =>
    simp only [onePass]
    by_cases h : (keysOf t).any (fun a => used.contains a)
    · rw [if_pos h]
      exact List.Perm.trans List.perm_middle ((ih used).cons t)
    · rw [if_neg h]
      simp only [List.cons_append]
      exact (ih (used ++ keysOf t)).cons t

lemma flatten_map_singleton (l : List Transaction) :
    (l.map (fun t => [t])).flatten = l := by
  induction l with
  | nil => simp
  | cons t ts ih => simp [ih]

lemma group_partition_complete_aux :
    ∀ (n : Nat) (txs : List Transaction), txs.length ≤ n →
      List.Perm (group_independent_txs txs).flatten txs := by
  intro n
  induction n with
  | zero =>
    intro txs h
    have he : txs = [] := List.length_eq_zero.mp (Nat.le_zero.mp h)
    subst he
    rw [group_independent_txs]
    simp
  | succ n ih =>
    intro txs h
    rw [group_independent_txs]
    by_cases h0 : txs.isEmpty
    · rw [if_pos h0]
      rw [List.isEmpty_iff] at h0
      subst h0
      simp
    · rw [if_neg h0]
      by_cases hg : ((onePass [] txs).1).isEmpty
      · rw [dif_pos hg]
        rw [flatten_map_singleton]
      · rw [dif_neg hg]
        simp only [List.flatten_cons]
        have hlen := onePass_length [] txs
        have hne : (onePass [] txs).1 ≠ [] := by
          intro he
          rw [he] at hg
          exact hg rfl
        have hpos : 0 < (onePass [] txs).1.length := List.length_pos.mpr hne
        have hd : (onePass [] txs).2.length ≤ n := by omega
        exact List.Perm.trans (List.Perm.append_left _ (ih (onePass [] txs).2 hd))
          (onePass_perm [] txs)

/-- C3: the groups produced by `group_independent_txs` partition the input
batch — their concatenation is a permutation (multiset equality) of the
batch, so no transaction is lost or duplicated. -/
theorem group_partition_complete (txs : List Transaction) :
    List.Perm (group_independent_txs txs).flatten txs :=
  group_partition_complete_aux txs.length txs (le_refl _)

lemma onePass_group_disjoint :
    ∀ (l : List Transaction) (used : List String),
    (∀ t ∈ (onePass used l).1, ∀ k ∈ keysOf t, k ∉ used)
    ∧ List.Pairwise (fun a b => ∀ k ∈ keysOf a, k ∉ keysOf b) (onePass used l).1 := by
  intro l
  induction l with
  | nil => intro used; simp [onePass]
  | cons t ts ih =>
    intro used
    simp only [onePass]
    by_cases h : (keysOf t).any (fun a => used.contains a)
    · rw [if_pos h]
      exact ih used
    · rw [if_neg h]
      have hnot : ∀ k ∈ keysOf t, k ∉ used := by
        intro k hk hmem
        exact h (List.any_eq_true.mpr ⟨k, hk, List.elem_iff.mpr hmem⟩)
      obtain ⟨h1, h2⟩ := ih (used ++ keysOf t)
      refine ⟨?_, ?_⟩
      · intro t2 ht2 k hk
        rcases List.mem_cons.mp ht2 with rfl | ht2g
        · exact hnot k hk
        · intro hku
          exact h1 t2 ht2g k hk (List.mem_append.mpr (Or.inl hku))
      · refine List.Pairwise.cons ?_ h2
        intro b hb k hk hkb
        exact h1 b hb k hkb (List.mem_append.mpr (Or.inr hk))

lemma conflictFree_of_keys_disjoint (a b : Transaction)
    (h : ∀ k, k ∈ keysOf a → k ∉ keysOf b) : conflictFree a b := by
  refine ⟨?_, ?_, ?_⟩
  · intro k hk hk2
    exact h k (List.mem_append.mpr (Or.inr hk)) (List.mem_append.mpr (Or.inr hk2))
  · intro k hk hk2
    exact h k (List.mem_append.mpr (Or.inl hk)) (List.mem_append.mpr (Or.inr hk2))
  · intro k hk hk2
    exact h k (List.mem_append.mpr (Or.inr hk)) (List.mem_append.mpr (Or.inl hk2))

lemma group_conflict_free_aux :
    ∀ (n : Nat) (txs : List Transaction), txs.length ≤ n →
    ∀ g ∈ group_independent_txs txs,
      List.Pairwise (fun i j => conflictFree i j ∧ conflictFree j i) g := by
  intro n
  induction n with
  | zero =>
    intro txs hlen g hg
    have he : txs = [] := List.length_eq_zero.mp (Nat.le_zero.mp hlen)
    subst he
    rw [group_independent_txs] at hg
    simp at hg
  | succ n ih =>
    intro txs hlen g hg
    rw [group_independent_txs] at hg
    by_cases h0 : txs.isEmpty
    · rw [if_pos h0] at hg
      simp at hg
    · rw [if_neg h0] at hg
      by_cases hg0 : ((onePass [] txs).1).isEmpty
      · rw [dif_pos hg0] at hg
        obtain ⟨t, _, rfl⟩ := List.mem_map.mp hg
        exact List.pairwise_singleton _ _
      · rw [dif_neg hg0] at hg
        rcases List.mem_cons.mp hg with rfl | hgr
        · have h2 := (onePass_group_disjoint txs []).2
          exact List.Pairwise.imp
            (fun hab => ⟨conflictFree_of_keys_disjoint _ _ hab,
              conflictFree_of_keys_disjoint _ _ (fun k hkb hka => hab k hka hkb)⟩) h2
        · have hlen2 := onePass_length [] txs
          have hne : (onePass [] txs).1 ≠ [] := by
            intro he
            rw [he] at hg0
            exact hg0 rfl
          have hpos : 0 < (onePass [] txs).1.length := List.length_pos.mpr hne
          exact ih (onePass [] txs).2 (by omega) g hgr

/-- C4: every group emitted by `group_independent_txs` is internally
conflict-free — for any two distinct members (in either order) the declared
write/write, read/write and write/read sets are disjoint. -/
theorem group_conflict_free (txs : List Transaction) :
    ∀ g ∈ group_independent_txs txs,
      List.Pairwise (fun i j => conflictFree i j ∧ conflictFree j i) g :=
  group_conflict_free_aux txs.length txs (le_refl _)

/-- Witness for C4: the singleton batch [txA] yields the single group [txA],
whose pairwise conflict-freedom is attested by the theorem. -/
theorem group_conflict_free_witness :
    List.Pairwise (fun i j => conflictFree i j ∧ conflictFree j i) [txA] := by
  have hmem : [txA] ∈ group_independent_txs [txA] := by
    rw [group_independent_txs]
    simp [onePass, keysOf, txA]
  exact group_conflict_free [txA] [txA] hmem

end L2

namespace Core

lemma add_transaction_parent (H : String → String) (b : Block) (tx : Transaction) :
    (Block.add_transaction H b tx).1.parent_hash = b.parent_hash := by
  by_cases h : b.gas_used + tx.gas_limit ≤ b.gas_limit <;>
    simp [Block.add_transaction, h]

lemma add_successful_parent (H : String → String) :
    ∀ (pairs : List (Transaction × TransactionReceipt)) (b : Block),
    (add_successful H b pairs).parent_hash = b.parent_hash := by
  intro pairs
  induction pairs with
  | nil => intro b; rfl
  | cons pr rest ih =>
    obtain ⟨tx, r⟩ := pr
    intro b
    by_cases hs : r.status
    · rw [show add_successful H b ((tx, r) :: rest)
          = add_successful H (Block.add_transaction H b tx).1 rest from by
        simp [add_successful, hs]]
      rw [ih, add_transaction_parent]
    · rw [show add_successful H b ((tx, r) :: rest) = add_successful H b rest from by
        simp [add_successful, hs]]
      exact ih b

lemma run_producer_head (H : String → String) (v : String) :
    ∀ (inputs : List (Int × List Transaction)) (st : ProducerState) (m : AccountMap)
      (b : Block), (run_producer H v st m inputs).head? = some b →
      b.parent_hash = st.last_hash := by
  intro inputs
  induction inputs with
  | nil =>
    intro st m b h
    simp [run_producer] at h
  | cons p rest ih =>
    obtain ⟨ts, txs⟩ := p
    intro st m b h
    by_cases he : txs.isEmpty
    · simp only [run_producer, produce_block, if_pos he] at h
      exact ih { current_block := st.current_block + 1, last_hash := st.last_hash } m b h
    · simp only [run_producer, produce_block, if_neg he, List.head?_cons] at h
      injection h with h
      subst h
      rw [add_successful_parent]
      rfl

lemma run_producer_chain (H : String → String) (v : String) :
    ∀ (inputs : List (Int × List Transaction)) (st : ProducerState) (m : AccountMap),
    List.Chain' (fun b1 b2 => b2.parent_hash = b1.hash) (run_producer H v st m inputs) := by
  intro inputs
  induction inputs with
  | nil => intro st m; simp [run_producer]
  | cons p rest ih =>
    obtain ⟨ts, txs⟩ := p
    intro st m
    by_cases he : txs.isEmpty
    · simp only [run_producer, produce_block, if_pos he]
      exact ih _ _
    · simp only [run_producer, produce_block, if_neg he]
      rw [List.chain'_cons']
      refine ⟨?_, ih _ _⟩
      intro b2 hb2
      exact run_producer_head H v rest _ _ b2 (Option.mem_def.mp hb2)

/-- C2: over any sequence of production cycles from the initial producer state
(block 0, last hash "0x0"), each committed block's `parent_hash` equals the
previous committed block's `hash`; empty ticks commit nothing and leave the
chain tip untouched. -/
theorem producer_hash_chain (H : String → String) (v : String) (m : AccountMap)
    (inputs : List (Int × List Transaction)) :
    List.Chain' (fun b1 b2 => b2.parent_hash = b1.hash)
      (run_producer H v { current_block := 0, last_hash := "0x0" } m inputs) :=
  run_producer_chain H v inputs { current_block := 0, last_hash := "0x0" } m

lemma add_successful_props (H : String → String) :
    ∀ (pairs : List (Transaction × TransactionReceipt)) (b : Block),
    (add_successful H b pairs).gas_limit = b.gas_limit
    ∧ (∃ suffix, (add_successful H b pairs).transactions = b.transactions ++ suffix
        ∧ (add_successful H b pairs).gas_used
            = b.gas_used + (suffix.map (fun t => t.gas_limit)).sum)
    ∧ (b.gas_used ≤ b.gas_limit → (add_successful H b pairs).gas_used ≤ b.gas_limit) := by
  intro pairs
  induction pairs with
  | nil =>
    intro b
    exact ⟨rfl, ⟨[], by simp [add_successful], by simp [add_successful]⟩, fun h => h⟩
  | cons pr rest ih =>
    obtain ⟨tx, r⟩ := pr
    intro b
    by_cases hs : r.status
    · by_cases hfit : b.gas_used + tx.gas_limit ≤ b.gas_limit
      · have hstep : add_successful H b ((tx, r) :: rest)
            = add_successful H (Block.add_transaction H b tx).1 rest := by
          simp [add_successful, hs]
        have hb1trans : (Block.add_transaction H b tx).1.transactions
            = b.transactions ++ [tx] := by
          simp [Block.add_transaction, hfit]
        have hb1gas : (Block.add_transaction H b tx).1.gas_used
            = b.gas_used + tx.gas_limit := by
          simp [Block.add_transaction, hfit]
        have hb1lim : (Block.add_transaction H b tx).1.gas_limit = b.gas_limit := by
          simp [Block.add_transaction, hfit]
        obtain ⟨hl, ⟨suf, hst, hsg⟩, hbound⟩ := ih (Block.add_transaction H b tx).1
        refine ⟨?_, ⟨tx :: suf, ?_, ?_⟩, ?_⟩
        · rw [hstep, hl, hb1lim]
        · rw [hstep, hst, hb1trans]
          simp
        · rw [hstep, hsg, hb1gas]
          simp [List.map_cons, List.sum_cons]
          omega
        · intro hb
          rw [hstep]
          have h2 := hbound (by rw [hb1gas, hb1lim]; exact hfit)
          rw [hb1lim] at h2
          exact h2
      · have hstep : add_successful H b ((tx, r) :: rest) = add_successful H b rest := by
          have hid : (Block.add_transaction H b tx).1 = b := by
            simp [Block.add_transaction, hfit]
          simp [add_successful, hs, hid]
        rw [hstep]
        exact ih b
    · have hstep : add_successful H b ((tx, r) :: rest) = add_successful H b rest := by
        simp [add_successful, hs]
      rw [hstep]
      exact ih b

/-- C5 (amended): during block assembly each successfully executed transaction
is appended exactly when its `gas_limit` fits the remaining budget, so the
cumulative `gas_used` (the sum of the gas limits of the appended suffix) never
exceeds the block's gas limit; a failed or over-budget transaction is skipped
but assembly continues with the remaining transactions, which may still be
included. -/
theorem block_assembly_gas_spec (H : String → String) (b : Block)
    (pairs : List (Transaction × TransactionReceipt)) (hb : b.gas_used ≤ b.gas_limit) :
    (add_successful H b pairs).gas_limit = b.gas_limit
    ∧ (add_successful H b pairs).gas_used ≤ b.gas_limit
    ∧ (∃ suffix, (add_successful H b pairs).transactions = b.transactions ++ suffix
        ∧ (add_successful H b pairs).gas_used
            = b.gas_used + (suffix.map (fun t => t.gas_limit)).sum)
    ∧ (∀ tx r rest, pairs = (tx, r) :: rest →
        (r.status = false ∨ b.gas_limit < b.gas_used + tx.gas_limit) →
        add_successful H b pairs = add_successful H b rest) := by
  obtain ⟨h1, h2, h3⟩ := add_successful_props H pairs b
  refine ⟨h1, h3 hb, h2, ?_⟩
  rintro tx r rest rfl (hr | hover)
  · simp [add_successful, hr]
  · by_cases hs : r.status
    · have hid : (Block.add_transaction H b tx).1 = b := by
        simp [Block.add_transaction, not_le.mpr hover]
      simp [add_successful, hs, hid]
    · simp [add_successful, hs]

/-- Witness for C5's amended spec: one fitting successful transaction keeps
the fresh block within its gas budget. -/
theorem block_assembly_gas_spec_witness :
    (add_successful (fun _ => "") blockB0 [(gasT1, okReceipt)]).gas_used
      ≤ blockB0.gas_limit := by
  have h := block_assembly_gas_spec (fun _ => "") blockB0 [(gasT1, okReceipt)] (by decide)
  exact h.2.1

/-- C5 counterexample: with all receipts successful and gas limits 20M, 20M,
10M against the 30M budget, the second transaction would exceed the budget,
yet the third — pulled later — is still included: block building does not stop
at the first over-budget transaction. -/
theorem block_assembly_does_not_stop :
    blockB0.gas_limit < blockB0.gas_used + gasT1.gas_limit + gasT2.gas_limit
    ∧ (add_successful (fun _ => "") blockB0
        [(gasT1, okReceipt), (gasT2, okReceipt), (gasT3, okReceipt)]).transactions
      = [gasT1, gasT3] := by
  constructor
  · decide
  · rfl

end Core
